import Mathlib

/-!
# Verification of the trenza repository-merging core

Shallow embedding of `src/merge.rs` and `src/lib.rs`: repository discovery
(`find_repos`), target initialization (`create_joined_repo`), branch
resolution (`prepare_manifest_branch`, `prepare_requested_branch`), the
orchestration loop (`merge_repos`) with its exclusion set, and the
two-phase content relocation (`move_repo_contents`).

External effects (git subprocesses, the filesystem) are modelled
explicitly: command outcomes come from oracles carried in a `GitEnv` /
`RepoEnv` record, issued commands are collected in a trace, and the
destination working tree is a list of component paths.
-/

namespace Trenza

/-! ## String utilities

Rust's `str::split('/')`, `str::contains('/')` and byte-wise string
comparison, modelled over `List Char`. -/

/-- Rust `split(sep)` semantics: `"a/" ↦ ["a", ""]`, `"" ↦ [""]`. -/
def splitChar (sep : Char) : List Char → List (List Char)
  | [] => [[]]
  | c :: cs =>
    if c = sep then
      [] :: splitChar sep cs
    else
      match splitChar sep cs with
      | [] => [[c]]
      | g :: gs => (c :: g) :: gs

/-- Split a string on the path separator, Rust `split('/')`. -/
def splitSlash (s : String) : List String :=
  (splitChar '/' s.data).map (fun l => String.mk l)

/-- Rust `str::contains('/')`. -/
def hasSlash (s : String) : Bool := s.data.contains '/'

/-- The first path segment, Rust `repo_name.split('/').next().unwrap()`. -/
def firstSeg (s : String) : String := (splitSlash s).headD ""

/-- The last path segment, Rust `manifest_branch.split('/').last()`. -/
def lastSeg (s : String) : String := (splitSlash s).getLastD ""

/-- Byte-wise (code-point-wise) strict order on character lists, the order
Rust uses to compare `str`/`OsStr` contents. -/
def charListLt : List Char → List Char → Bool
  | [], [] => false
  | [], _ :: _ => true
  | _ :: _, [] => false
  | a :: as, b :: bs =>
    if a < b then true else if b < a then false else charListLt as bs

/-- Strict string order derived from `charListLt`. -/
def strLt (a b : String) : Bool := charListLt a.data b.data

/-! ## The manifest pointer pattern

`MANIFEST_BRANCH_PATTERN = r"m\/\S* -> (\S*)"` applied with
`Regex::captures`, which returns the capture of the leftmost match.
Because `\S*` cannot consume whitespace, at any candidate start the
quantifier must stop exactly at the end of the maximal non-whitespace
run for the literal `" -> "` to match, so the regex is equivalent to
the direct scan below. -/

/-- Whitespace as relevant for `\S` on the listings at hand. -/
def isWS (c : Char) : Bool := c = ' ' || c = '\t' || c = '\n' || c = '\r'

/-- Split off the maximal leading run of non-whitespace characters. -/
def spanNonWS : List Char → List Char × List Char
  | [] => ([], [])
  | c :: cs =>
    if isWS c then ([], c :: cs)
    else
      let r := spanNonWS cs
      (c :: r.1, r.2)

/-- Try to match `m\/\S* -> (\S*)` starting at the head of the list,
returning the capture group. -/
def matchManifestAt : List Char → Option (List Char)
  | 'm' :: '/' :: rest =>
    match (spanNonWS rest).2 with
    | ' ' :: '-' :: '>' :: ' ' :: r2 => some (spanNonWS r2).1
    | _ => none
  | _ => none

/-- Scan for the leftmost match of the manifest pointer pattern. -/
def manifestScan : List Char → Option (List Char)
  | [] => none
  | c :: cs =>
    match matchManifestAt (c :: cs) with
    | some cap => some cap
    | none => manifestScan cs

/-- Model of `re.captures(&remote_branches)` for the pointer pattern:
the capture group of the leftmost match, if any. -/
def manifestCapture (s : String) : Option String :=
  (manifestScan s.data).map (fun l => String.mk l)

/-! ## Branch resolution -/

/-- Outcomes of the git subprocesses a single source repository can be
asked to run during branch resolution. `branchROut` is the captured
stdout of `git branch -r`; the `Ok` fields say whether the respective
command exits successfully. -/
structure GitEnv where
  branchROk : Bool
  branchROut : String
  checkoutOk : String → Bool
  checkoutNewOk : String → String → Bool

/-- Commands issued against the version-control command interface. -/
inductive Cmd where
  | branchR : Cmd
  | checkout : String → Cmd
  | checkoutNew : String → String → Cmd
  | remoteAdd : String → Cmd
  | fetch : String → Cmd
  | mergeRef : String → String → Cmd
  | moveContents : String → Cmd
deriving DecidableEq, Repr

/-- Result of one branch-resolution attempt: the commands issued in the
source repository, whether a warning was logged, and the resolved ref
(or failure). -/
structure PrepResult where
  trace : List Cmd
  warned : Bool
  result : Except Unit String
deriving Repr

/-- Constant `TMP_JOIN_BRANCH` from `prepare_manifest_branch`. -/
def TMP_JOIN_BRANCH : String := "tmp_join_branch"

/-- Embedding of `prepare_manifest_branch` (src/merge.rs): list remote
branches, capture the manifest pointer target, then either check out the
last path segment (separator case) or check out a fixed-name temporary
branch from the tag, downgrading any failure there to a warning. -/
def prepareManifestBranch (env : GitEnv) : PrepResult :=
  if !env.branchROk then
    ⟨[Cmd.branchR], false, .error ()⟩
  else
    match manifestCapture env.branchROut with
    | some mb =>
      if hasSlash mb then
        let b := lastSeg mb
        if env.checkoutOk b then
          ⟨[Cmd.branchR, Cmd.checkout b], false, .ok b⟩
        else
          ⟨[Cmd.branchR, Cmd.checkout b], false, .error ()⟩
      else
        if env.checkoutNewOk TMP_JOIN_BRANCH mb then
          ⟨[Cmd.branchR, Cmd.checkoutNew TMP_JOIN_BRANCH mb], false, .ok TMP_JOIN_BRANCH⟩
        else
          ⟨[Cmd.branchR, Cmd.checkoutNew TMP_JOIN_BRANCH mb], true, .ok TMP_JOIN_BRANCH⟩
    | none => ⟨[Cmd.branchR], false, .error ()⟩

/-- Embedding of `prepare_requested_branch`: check the caller-supplied
branch out in the source repository and return it. -/
def prepareRequestedBranch (env : GitEnv) (branch : String) : PrepResult :=
  if env.checkoutOk branch then
    ⟨[Cmd.checkout branch], false, .ok branch⟩
  else
    ⟨[Cmd.checkout branch], false, .error ()⟩

/-- Strategy selection in `merge_repos`: an explicit branch name selects
the requested-branch resolver, its absence the manifest resolver. -/
def prepareBranch (branch : Option String) (env : GitEnv) : PrepResult :=
  match branch with
  | some b => prepareRequestedBranch env b
  | none => prepareManifestBranch env

/-! ## The orchestration loop (`merge_repos`) -/

/-- Constant `TMP_TARGET_PATH` from src/merge.rs: the staging sentinel. -/
def TMP_TARGET_PATH : String := "z_tmp_unique_target_directory_@@@"

/-- The exclusion set `merge_repos` starts from:
`HashSet::from([".git".to_owned(), TMP_TARGET_PATH.to_owned()])`.
Sets of names are modelled as duplicate-free lists in insertion order. -/
def initialExclude : List String := [".git", TMP_TARGET_PATH]

/-- Model of `HashSet::insert`: add the name unless already present. -/
def insertNew (st : List String) (x : String) : List String :=
  if x ∈ st then st else st ++ [x]

/-- One source repository as seen by the orchestration loop: its alias
(path relative to the scan root, slash-joined), the git oracle for branch
resolution, and the outcomes of the per-repository target commands. -/
structure RepoEnv where
  aliasName : String
  gitEnv : GitEnv
  remoteAddOk : Bool
  fetchOk : Bool
  mergeOk : Bool
  moveOk : Bool

/-- One iteration of the loop body of `merge_repos`: resolve the branch,
register the remote, fetch, merge, relocate, then record the alias's
first path segment in the exclusion set. Returns the commands issued and
either the updated exclusion set or failure. -/
def mergeStep (branch : Option String) (st : List String) (r : RepoEnv) :
    List Cmd × Except Unit (List String) :=
  let p := prepareBranch branch r.gitEnv
  match p.result with
  | .error _ => (p.trace, .error ())
  | .ok mb =>
    let t1 := p.trace ++ [Cmd.remoteAdd r.aliasName]
    if !r.remoteAddOk then (t1, .error ())
    else
      let t2 := t1 ++ [Cmd.fetch r.aliasName]
      if !r.fetchOk then (t2, .error ())
      else
        let t3 := t2 ++ [Cmd.mergeRef r.aliasName mb]
        if !r.mergeOk then (t3, .error ())
        else
          let t4 := t3 ++ [Cmd.moveContents r.aliasName]
          if !r.moveOk then (t4, .error ())
          else (t4, .ok (insertNew st (firstSeg r.aliasName)))

/-- The loop of `merge_repos`, threading the exclusion set and stopping
at the first failing repository. -/
def mergeReposAux (branch : Option String) :
    List String → List RepoEnv → List Cmd × Except Unit (List String)
  | st, [] => ([], .ok st)
  | st, r :: rs =>
    let s := mergeStep branch st r
    match s.2 with
    | .error _ => (s.1, .error ())
    | .ok st' =>
      let rest := mergeReposAux branch st' rs
      (s.1 ++ rest.1, rest.2)

/-- Embedding of `merge_repos`: run the loop from `initialExclude`. -/
def mergeRepos (branch : Option String) (rs : List RepoEnv) :
    List Cmd × Except Unit (List String) :=
  mergeReposAux branch initialExclude rs

/-- All per-repository commands of one loop iteration succeed. Note this
does not depend on the exclusion set, only on the repository's oracles. -/
def stepOk (branch : Option String) (r : RepoEnv) : Bool :=
  (prepareBranch branch r.gitEnv).result.isOk
    && r.remoteAddOk && r.fetchOk && r.mergeOk && r.moveOk

/-! ## Repository discovery (`find_repos`) -/

/-- A filesystem path as its list of components. -/
abbrev FsPath := List String

/-- Model of `Path::parent`, on component lists. -/
def parentPath (p : FsPath) : Option FsPath :=
  match p with
  | [] => none
  | _ :: _ => some p.dropLast

/-- The entries of the directory tree `fs` matched by the glob pattern
`{root}/**/.git`: paths strictly below `root` whose final component is
the version-control metadata marker. -/
def globGitMarkers (root : FsPath) (fs : List FsPath) : List FsPath :=
  fs.filter (fun p =>
    root.isPrefixOf p && decide (root.length < p.length)
      && (p.getLast? == some ".git"))

/-- Component-wise path comparison: `Ord for PathBuf` compares the
component sequences lexicographically, each component byte-wise. -/
def pathLeB : FsPath → FsPath → Bool
  | [], _ => true
  | _ :: _, [] => false
  | a :: as, b :: bs =>
    if strLt a b then true else if strLt b a then false else pathLeB as bs

/-- Insert a path into a `pathLeB`-sorted list. -/
def insertPath (p : FsPath) : List FsPath → List FsPath
  | [] => [p]
  | q :: qs => if pathLeB p q then p :: q :: qs else q :: insertPath p qs

/-- Model of `paths.sort()` on `Vec<PathBuf>`: insertion sort under
`pathLeB`. -/
def sortPaths : List FsPath → List FsPath
  | [] => []
  | p :: ps => insertPath p (sortPaths ps)

/-- The slash-joined rendering of a component path, for comparing the
result order with path-*string* order. -/
def pathString (p : FsPath) : String := String.intercalate "/" p

/-- Pure tree-level embedding of `find_repos`: glob for metadata markers
below `root`, strip the marker component via `parent`, sort. -/
def findRepos (root : FsPath) (fs : List FsPath) : List FsPath :=
  sortPaths ((globGitMarkers root fs).filterMap parentPath)

/-- Embedding of `find_repos` at the level of the glob iterator:
`patternOk` is whether `glob(...)` itself succeeded (the `?` on line 40),
`scan` the per-entry results of iterating it. The body keeps only `Ok`
entries (`res.ok()`), takes parents, and sorts. -/
def findReposScan (patternOk : Bool) (scan : List (Except Unit FsPath)) :
    Except Unit (List FsPath) :=
  if patternOk then
    .ok (sortPaths ((scan.filterMap Except.toOption).filterMap parentPath))
  else
    .error ()

/-! ## Target initialization (`create_joined_repo`) -/

/-- Model of `fs::create_dir`: fails if the path exists or its parent
directory is missing; otherwise records the new directory. A
single-component path needs no recorded parent. -/
def createDir (fs : List FsPath) (p : FsPath) : Except Unit (List FsPath) :=
  if p ∈ fs then .error ()
  else if p.length ≤ 1 ∨ p.dropLast ∈ fs then .ok (p :: fs)
  else .error ()

/-- Embedding of `create_joined_repo`: create the target directory fresh,
then run `git init` in it (oracle `initOk`). -/
def createJoinedRepo (fs : List FsPath) (target : FsPath) (initOk : Bool) :
    Except Unit (List FsPath) :=
  match createDir fs target with
  | .error _ => .error ()
  | .ok fs2 => if initOk then .ok fs2 else .error ()

/-- The phase structure of `merge_repositories`: discovery first, then —
only if discovery succeeded — target creation, the first mutation. The
boolean records whether any mutating step was reached. -/
def runMergePhases (patternOk : Bool) (scan : List (Except Unit FsPath))
    (dirExists initOk : Bool) : Except Unit (List FsPath) × Bool :=
  match findReposScan patternOk scan with
  | .error _ => (.error (), false)
  | .ok repos =>
    if dirExists then (.error (), true)
    else if initOk then (.ok repos, true)
    else (.error (), true)

/-! ## Content relocation (`move_repo_contents`)

The destination working tree is a list of component paths relative to
the joined repository's root; a directory entry is the path of the
directory itself, files below it are longer paths sharing its prefix. -/

/-- All proper prefixes created by `fs::create_dir_all` on a component
path: `["a", "b"] ↦ [["a"], ["a", "b"]]`. -/
def dirChain : List String → List FsPath
  | [] => []
  | c :: cs => [c] :: (dirChain cs).map (fun p => c :: p)

/-- The top-level entries of the destination that are not excluded: the
`read_dir` listing of `move_repo_contents`, filtered by the exclusion
set. -/
def topEntries (exclude : List String) (tree1 : List FsPath) : List String :=
  ((tree1.filterMap List.head?).dedup).filter (fun n => decide (n ∉ exclude))

/-- Effect on one path of the first `git mv`: top-level entries named in
`tops` move (with their subtrees) under the staging sentinel. -/
def stageMove (tops : List String) (p : FsPath) : FsPath :=
  match p with
  | [] => []
  | n :: rest => if n ∈ tops then TMP_TARGET_PATH :: n :: rest else n :: rest

/-- The destination tree after the first `git mv` of
`move_repo_contents`. -/
def stagedTree (exclude : List String) (tree1 : List FsPath) : List FsPath :=
  tree1.map (stageMove (topEntries exclude tree1))

/-- Model of `fs::create_dir_all` on the alias parent when the alias has a
separator: add the missing prefixes of the parent path. -/
def withParents (repoName : String) (tree2 : List FsPath) : List FsPath :=
  if hasSlash repoName then
    (dirChain (splitSlash repoName).dropLast).filter
      (fun p => decide (p ∉ tree2)) ++ tree2
  else tree2

/-- Effect on one path of the second `git mv`: the staging directory and
everything below it move to the alias path. -/
def finalMove (comps : List String) (p : FsPath) : FsPath :=
  match p with
  | [] => []
  | n :: rest => if n = TMP_TARGET_PATH then comps ++ rest else n :: rest

/-- Embedding of `move_repo_contents`: create the staging directory, list
the top-level entries not in `exclude`, `git mv` them into the staging
directory, create the alias's parent directories when the alias contains
a separator, and `git mv` the staging directory to the alias path. -/
def moveRepoContents (exclude : List String) (repoName : String)
    (tree : List FsPath) : List FsPath :=
  (withParents repoName
    (stagedTree exclude
      (if [TMP_TARGET_PATH] ∈ tree then tree else [TMP_TARGET_PATH] :: tree))).map
    (finalMove (splitSlash repoName))

/-! ## Theorems -/

/-- C4: In the manifest-derived strategy, a captured pointer target
containing a path separator resolves to everything after the last
separator, and that branch is checked out in the source repository. -/
theorem prepareManifestBranch_separator (env : GitEnv) (mb : String)
    (hok : env.branchROk = true)
    (hcap : manifestCapture env.branchROut = some mb)
    (hsep : hasSlash mb = true)
    (hco : env.checkoutOk (lastSeg mb) = true) :
    (prepareManifestBranch env).result = .ok (lastSeg mb) ∧
      (prepareManifestBranch env).trace
        = [Cmd.branchR, Cmd.checkout (lastSeg mb)] := by
  simp [prepareManifestBranch, hok, hcap, hsep, hco]

/-- Witness for C4, at the spec's example listing: the manifest pointer
target `origin/release-1.0` resolves to branch `release-1.0`, which is
checked out in the source repository. -/
theorem prepareManifestBranch_separator_witness :
    manifestCapture "  m/foo -> origin/release-1.0\n  origin/main\n"
        = some "origin/release-1.0" ∧
      lastSeg "origin/release-1.0" = "release-1.0" ∧
      (prepareManifestBranch
          ⟨true, "  m/foo -> origin/release-1.0\n  origin/main\n",
            fun _ => true, fun _ _ => true⟩).result = .ok "release-1.0" ∧
      (prepareManifestBranch
          ⟨true, "  m/foo -> origin/release-1.0\n  origin/main\n",
            fun _ => true, fun _ _ => true⟩).trace
        = [Cmd.branchR, Cmd.checkout "release-1.0"] := by
  refine ⟨by decide, by decide, ?_⟩
  have h := prepareManifestBranch_separator
    ⟨true, "  m/foo -> origin/release-1.0\n  origin/main\n",
      fun _ => true, fun _ _ => true⟩
    "origin/release-1.0" rfl (by decide) (by decide) (by decide)
  simpa using h

/-- C5: In the manifest-derived strategy, a captured pointer target with
no separator resolves to the fixed constant temporary branch name
`tmp_join_branch`; if creating that branch fails because it already
exists, a warning is logged and resolution still succeeds with the fixed
name. -/
theorem prepareManifestBranch_tag_fixed_name (env : GitEnv) (mb : String)
    (hok : env.branchROk = true)
    (hcap : manifestCapture env.branchROut = some mb)
    (hsep : hasSlash mb = false) :
    (prepareManifestBranch env).result = .ok "tmp_join_branch" ∧
      (env.checkoutNewOk TMP_JOIN_BRANCH mb = false →
        (prepareManifestBranch env).warned = true) := by
  simp only [prepareManifestBranch, hok, Bool.not_true, hcap, hsep]
  cases hco : env.checkoutNewOk TMP_JOIN_BRANCH mb <;> simp [TMP_JOIN_BRANCH]

/-- Witness for C5: pointer target `v1.2` (no separator) against a source
repository where the fixed-name branch already exists (the new-branch
checkout fails): resolution warns and returns `tmp_join_branch`. -/
theorem prepareManifestBranch_tag_fixed_name_witness :
    manifestCapture "  m/foo -> v1.2\n" = some "v1.2" ∧
      (prepareManifestBranch
          ⟨true, "  m/foo -> v1.2\n", fun _ => true,
            fun _ _ => false⟩).result = .ok "tmp_join_branch" ∧
      (prepareManifestBranch
          ⟨true, "  m/foo -> v1.2\n", fun _ => true,
            fun _ _ => false⟩).warned = true := by
  refine ⟨by decide, ?_⟩
  have h := prepareManifestBranch_tag_fixed_name
    ⟨true, "  m/foo -> v1.2\n", fun _ => true, fun _ _ => false⟩
    "v1.2" rfl (by decide) (by decide)
  exact ⟨h.1, h.2 rfl⟩

/-- C10: In the tag (no-separator) case, resolution never fails: whatever
the outcome of the new-branch checkout, the result is `Ok` with the
fixed temporary name, and a failure of the checkout is recorded only as
a warning. -/
theorem prepareManifestBranch_tag_never_fails (env : GitEnv) (mb : String)
    (hok : env.branchROk = true)
    (hcap : manifestCapture env.branchROut = some mb)
    (hsep : hasSlash mb = false) :
    (prepareManifestBranch env).result.isOk = true ∧
      (prepareManifestBranch env).warned
        = !env.checkoutNewOk TMP_JOIN_BRANCH mb := by
  simp only [prepareManifestBranch, hok, Bool.not_true, hcap, hsep]
  cases hco : env.checkoutNewOk TMP_JOIN_BRANCH mb <;>
    simp [Except.isOk, Except.toBool]

/-- Witness for C10: the pointer target names a nonexistent tag, so the
new-branch checkout fails for a reason other than a pre-existing branch;
resolution still succeeds with the fixed name, warning only. -/
theorem prepareManifestBranch_tag_never_fails_witness :
    manifestCapture "  m/bar -> v9.9-missing\n" = some "v9.9-missing" ∧
      (prepareManifestBranch
          ⟨true, "  m/bar -> v9.9-missing\n", fun _ => false,
            fun _ _ => false⟩).result.isOk = true ∧
      (prepareManifestBranch
          ⟨true, "  m/bar -> v9.9-missing\n", fun _ => false,
            fun _ _ => false⟩).warned = true := by
  refine ⟨by decide, ?_⟩
  have h := prepareManifestBranch_tag_never_fails
    ⟨true, "  m/bar -> v9.9-missing\n", fun _ => false, fun _ _ => false⟩
    "v9.9-missing" rfl (by decide) (by decide)
  exact ⟨h.1, by rw [h.2]; rfl⟩

/-- C6: When the remote-branch listing matches no manifest pointer line,
the manifest strategy fails, the failure aborts the remaining run, and
the only command issued for that repository is the branch listing — no
remote registration, fetch, or merge. -/
theorem manifest_miss_aborts (st : List String) (r : RepoEnv)
    (rs : List RepoEnv)
    (hok : r.gitEnv.branchROk = true)
    (hcap : manifestCapture r.gitEnv.branchROut = none) :
    (mergeReposAux none st (r :: rs)).2 = .error () ∧
      (mergeReposAux none st (r :: rs)).1 = [Cmd.branchR] := by
  simp [mergeReposAux, mergeStep, prepareBranch, prepareManifestBranch,
    hok, hcap]

/-- Witness for C6: a listing with only an ordinary remote branch and no
`m/... -> ...` pointer line aborts with only the listing command run. -/
theorem manifest_miss_aborts_witness :
    manifestCapture "  origin/HEAD\n  origin/main\n" = none ∧
      (mergeReposAux none initialExclude
          [⟨"repoA", ⟨true, "  origin/HEAD\n  origin/main\n",
            fun _ => true, fun _ _ => true⟩, true, true, true, true⟩]).2
        = .error () ∧
      (mergeReposAux none initialExclude
          [⟨"repoA", ⟨true, "  origin/HEAD\n  origin/main\n",
            fun _ => true, fun _ _ => true⟩, true, true, true, true⟩]).1
        = [Cmd.branchR] := by
  refine ⟨by decide, ?_⟩
  exact manifest_miss_aborts initialExclude
    ⟨"repoA", ⟨true, "  origin/HEAD\n  origin/main\n",
      fun _ => true, fun _ _ => true⟩, true, true, true, true⟩
    [] rfl (by decide)

/-- C9: Target initialization fails whenever the target path already
exists or the repository-initialization command fails, and it succeeds
only by creating the target directory fresh. -/
theorem createJoinedRepo_spec (fs : List FsPath) (target : FsPath)
    (initOk : Bool) :
    (target ∈ fs → createJoinedRepo fs target initOk = .error ()) ∧
      (initOk = false → createJoinedRepo fs target initOk = .error ()) ∧
      (∀ fs2, createJoinedRepo fs target initOk = .ok fs2 →
        target ∉ fs ∧ initOk = true ∧ fs2 = target :: fs) := by
  refine ⟨?_, ?_, ?_⟩
  · intro hmem
    simp [createJoinedRepo, createDir, hmem]
  · intro hi
    subst hi
    unfold createJoinedRepo
    cases hcd : createDir fs target <;> simp
  · intro fs2 h
    unfold createJoinedRepo at h
    cases hcd : createDir fs target with
    | error e => rw [hcd] at h; cases h
    | ok fs3 =>
      rw [hcd] at h
      unfold createDir at hcd
      by_cases hmem : target ∈ fs
      · rw [if_pos hmem] at hcd; cases hcd
      · rw [if_neg hmem] at hcd
        cases hi : initOk with
        | false => rw [hi] at h; simp at h
        | true =>
          rw [hi] at h
          simp only [if_true] at h
          cases h
          refine ⟨hmem, rfl, ?_⟩
          by_cases hp : target.length ≤ 1 ∨ target.dropLast ∈ fs
          · rw [if_pos hp] at hcd; cases hcd; rfl
          · rw [if_neg hp] at hcd; cases hcd

/-- Witness for C9: an existing target aborts; a fresh single-component
target with a succeeding init is created. -/
theorem createJoinedRepo_spec_witness :
    createJoinedRepo [["rootJoined"]] ["rootJoined"] true = .error () ∧
      (["rootJoined"] ∈ ([["rootJoined"]] : List FsPath)) := by
  refine ⟨?_, by decide⟩
  exact (createJoinedRepo_spec [["rootJoined"]] ["rootJoined"] true).1
    (by decide)

/-- C2 counterexample: a scan-entry error in the glob results is silently
dropped — discovery still succeeds (with the errored entry omitted)
instead of reporting the error and aborting. -/
theorem findReposScan_drops_error_cex :
    (Except.error () ∈
        ([Except.error (), Except.ok ["r", "a", ".git"]]
          : List (Except Unit FsPath))) ∧
      findReposScan true [Except.error (), Except.ok ["r", "a", ".git"]]
        = .ok [["r", "a"]] := by
  exact ⟨List.Mem.head _, by rfl⟩

/-- C2 amended: a failure of the glob pattern itself aborts discovery and
the run before any mutating phase is reached, but errors on individual
scan entries are silently skipped: the result is as if the entry were
absent. -/
theorem findReposScan_error_handling (scan scan2 : List (Except Unit FsPath))
    (dirExists initOk : Bool) :
    runMergePhases false scan dirExists initOk = (.error (), false) ∧
      findReposScan true (scan ++ Except.error () :: scan2)
        = findReposScan true (scan ++ scan2) := by
  constructor
  · rfl
  · simp [findReposScan, List.filterMap_append, Except.toOption]

/-- C1 counterexample: the exclusion set is not created empty — at
orchestration start (zero repositories merged) it already contains the
version-control metadata name and the staging sentinel, so `.git` is
excluded from relocation before the first repository is merged. -/
theorem initialExclude_not_empty_cex :
    (mergeRepos none []).2 = .ok [".git", TMP_TARGET_PATH] ∧
      ".git" ∈ initialExclude ∧
      initialExclude ≠ ([] : List String) := by
  exact ⟨rfl, by decide, by decide⟩

/-! ### Lemmas about the orchestration loop -/

theorem mem_insertNew (st : List String) (x y : String) :
    y ∈ insertNew st x ↔ y ∈ st ∨ y = x := by
  unfold insertNew
  by_cases hc : x ∈ st
  · rw [if_pos hc]
    constructor
    · exact fun h => Or.inl h
    · rintro (h | rfl)
      · exact h
      · exact hc
  · rw [if_neg hc]
    simp

theorem length_insertNew (st : List String) (x : String) :
    (insertNew st x).length ≤ st.length + 1 := by
  unfold insertNew
  by_cases hc : x ∈ st
  · rw [if_pos hc]; omega
  · rw [if_neg hc]; simp

/-- A successful loop iteration produces exactly the input exclusion set
extended (idempotently) with the alias's first path segment. -/
theorem mergeStep_ok_shape (branch : Option String) (st st1 : List String)
    (r : RepoEnv) (h : (mergeStep branch st r).2 = .ok st1) :
    st1 = insertNew st (firstSeg r.aliasName) := by
  simp only [mergeStep] at h
  cases hp : (prepareBranch branch r.gitEnv).result with
  | error e => rw [hp] at h; simp at h
  | ok mb =>
    rw [hp] at h
    simp only [] at h
    repeat' split at h
    all_goals simp_all

/-- If every command of a loop iteration succeeds, the iteration succeeds
with the extended exclusion set. -/
theorem mergeStep_ok_of_stepOk (branch : Option String) (st : List String)
    (r : RepoEnv) (h : stepOk branch r = true) :
    (mergeStep branch st r).2 = .ok (insertNew st (firstSeg r.aliasName)) := by
  unfold stepOk at h
  simp only [Bool.and_eq_true] at h
  obtain ⟨⟨⟨⟨h1, h2⟩, h3⟩, h4⟩, h5⟩ := h
  cases hp : (prepareBranch branch r.gitEnv).result with
  | error e =>
    rw [hp] at h1
    simp [Except.isOk, Except.toBool] at h1
  | ok mb =>
    simp [mergeStep, hp, h2, h3, h4, h5]

/-- An all-successful run threads the exclusion set through one insertion
per repository. -/
theorem mergeReposAux_ok (branch : Option String) (rs : List RepoEnv) :
    ∀ st, (∀ r ∈ rs, stepOk branch r = true) →
      (mergeReposAux branch st rs).2
        = .ok (rs.foldl
            (fun st r => insertNew st (firstSeg r.aliasName)) st) := by
  induction rs with
  | nil => intro st _; rfl
  | cons r rs ih =>
    intro st h
    have hr := h r (List.mem_cons_self r rs)
    have hstep := mergeStep_ok_of_stepOk branch st r hr
    simp only [mergeReposAux, hstep, List.foldl_cons]
    exact ih _ (fun q hq => h q (List.mem_cons_of_mem r hq))

/-- C1 amended: the exclusion set is created at orchestration start
holding exactly the version-control metadata name and the staging
sentinel, and an all-successful run mutates it exactly once per merged
repository, by inserting the alias's first path segment. -/
theorem mergeRepos_exclusion_lifecycle (branch : Option String)
    (rs : List RepoEnv) (h : ∀ r ∈ rs, stepOk branch r = true) :
    initialExclude = [".git", TMP_TARGET_PATH] ∧
      (mergeRepos branch rs).2
        = .ok (rs.foldl
            (fun st r => insertNew st (firstSeg r.aliasName))
            initialExclude) := by
  exact ⟨rfl, mergeReposAux_ok branch rs initialExclude h⟩

/-- Witness for the amended C1: one repository with alias `repoA` on an
explicitly requested branch; the run ends with the two initial entries
plus `repoA`. -/
theorem mergeRepos_exclusion_lifecycle_witness :
    stepOk (some "main")
        ⟨"repoA", ⟨true, "", fun _ => true, fun _ _ => true⟩,
          true, true, true, true⟩ = true ∧
      (mergeRepos (some "main")
          [⟨"repoA", ⟨true, "", fun _ => true, fun _ _ => true⟩,
            true, true, true, true⟩]).2
        = .ok [".git", TMP_TARGET_PATH, "repoA"] := by
  refine ⟨by decide, ?_⟩
  have h := mergeRepos_exclusion_lifecycle (some "main")
    [⟨"repoA", ⟨true, "", fun _ => true, fun _ _ => true⟩,
      true, true, true, true⟩]
    (by intro q hq; simp at hq; subst hq; decide)
  rw [h.2]
  rfl

/-- C3 counterexample: two repositories whose aliases share the first
path segment `grp` both merge successfully, yet the exclusion set gains
only one entry over the two merges — not exactly one new entry per
repository. -/
theorem exclusion_gain_cex :
    (mergeRepos (some "main")
        [⟨"grp/a", ⟨true, "", fun _ => true, fun _ _ => true⟩,
          true, true, true, true⟩,
         ⟨"grp/b", ⟨true, "", fun _ => true, fun _ _ => true⟩,
          true, true, true, true⟩]).2
      = .ok [".git", TMP_TARGET_PATH, "grp"] ∧
      ([".git", TMP_TARGET_PATH, "grp"] : List String).length
        = initialExclude.length + 1 := by
  exact ⟨rfl, by decide⟩

/-- C3 amended: over any successful stretch of the run, the exclusion
set never loses entries, each merged repository's alias contributes its
first path segment, nothing else is ever added, and each repository adds
at most one entry (none when its first segment is already present). -/
theorem mergeReposAux_exclusion_evolution (branch : Option String)
    (rs : List RepoEnv) :
    ∀ st st', (mergeReposAux branch st rs).2 = .ok st' →
      (∀ x ∈ st, x ∈ st') ∧
      (∀ r ∈ rs, firstSeg r.aliasName ∈ st') ∧
      (∀ x ∈ st', x ∈ st ∨ ∃ r ∈ rs, x = firstSeg r.aliasName) ∧
      st'.length ≤ st.length + rs.length := by
  induction rs with
  | nil =>
    intro st st' h
    simp only [mergeReposAux] at h
    cases h
    exact ⟨fun x hx => hx, by simp, fun x hx => Or.inl hx, by simp⟩
  | cons r rs ih =>
    intro st st' h
    simp only [mergeReposAux] at h
    cases hstep : (mergeStep branch st r).2 with
    | error e => rw [hstep] at h; simp at h
    | ok st1 =>
      rw [hstep] at h
      simp only [] at h
      have hshape := mergeStep_ok_shape branch st st1 r hstep
      subst hshape
      obtain ⟨ihMono, ihAll, ihOnly, ihLen⟩ := ih _ st' h
      refine ⟨?_, ?_, ?_, ?_⟩
      · intro x hx
        exact ihMono x ((mem_insertNew st (firstSeg r.aliasName) x).mpr
          (Or.inl hx))
      · intro q hq
        rcases List.mem_cons.mp hq with rfl | hq'
        · exact ihMono _ ((mem_insertNew st (firstSeg q.aliasName) _).mpr
            (Or.inr rfl))
        · exact ihAll q hq'
      · intro x hx
        rcases ihOnly x hx with hx' | ⟨q, hq, rfl⟩
        · rcases (mem_insertNew st (firstSeg r.aliasName) x).mp hx' with
            hst | rfl
          · exact Or.inl hst
          · exact Or.inr ⟨r, List.mem_cons_self r rs, rfl⟩
        · exact Or.inr ⟨q, List.mem_cons_of_mem r hq, rfl⟩
      · have := length_insertNew st (firstSeg r.aliasName)
        simp only [List.length_cons]
        omega

/-- Witness for the amended C3: the two-repository shared-segment run,
read through the evolution theorem — `.git` survives, `grp` is present,
and the final set is within the size bound. -/
theorem mergeReposAux_exclusion_evolution_witness :
    (mergeReposAux (some "main") initialExclude
        [⟨"grp/a", ⟨true, "", fun _ => true, fun _ _ => true⟩,
          true, true, true, true⟩,
         ⟨"grp/b", ⟨true, "", fun _ => true, fun _ _ => true⟩,
          true, true, true, true⟩]).2
      = .ok [".git", TMP_TARGET_PATH, "grp"] ∧
      ".git" ∈ ([".git", TMP_TARGET_PATH, "grp"] : List String) ∧
      ([".git", TMP_TARGET_PATH, "grp"] : List String).length
        ≤ initialExclude.length + 2 := by
  refine ⟨rfl, ?_, ?_⟩
  · have h := (mergeReposAux_exclusion_evolution (some "main")
      [⟨"grp/a", ⟨true, "", fun _ => true, fun _ _ => true⟩,
        true, true, true, true⟩,
       ⟨"grp/b", ⟨true, "", fun _ => true, fun _ _ => true⟩,
        true, true, true, true⟩] initialExclude
      [".git", TMP_TARGET_PATH, "grp"] rfl)
    exact h.1 ".git" (by decide)
  · have h := (mergeReposAux_exclusion_evolution (some "main")
      [⟨"grp/a", ⟨true, "", fun _ => true, fun _ _ => true⟩,
        true, true, true, true⟩,
       ⟨"grp/b", ⟨true, "", fun _ => true, fun _ _ => true⟩,
        true, true, true, true⟩] initialExclude
      [".git", TMP_TARGET_PATH, "grp"] rfl)
    simpa using h.2.2.2

/-! ### Lemmas about content relocation -/

theorem mem_of_mem_dropLast {α : Type} (l : List α) (x : α)
    (h : x ∈ l.dropLast) : x ∈ l := by
  induction l with
  | nil => simp at h
  | cons a l ih =>
    cases l with
    | nil => simp at h
    | cons b l =>
      rcases List.mem_cons.mp h with rfl | h'
      · exact List.mem_cons_self _ _
      · exact List.mem_cons_of_mem a (ih h')

theorem mem_dirChain_comps (l : List String) (q : FsPath)
    (hq : q ∈ dirChain l) : ∀ s ∈ q, s ∈ l := by
  induction l generalizing q with
  | nil => simp [dirChain] at hq
  | cons c cs ih =>
    simp only [dirChain, List.mem_cons, List.mem_map] at hq
    rcases hq with rfl | ⟨w, hw, rfl⟩
    · intro s hs
      simp only [List.mem_singleton] at hs
      exact List.mem_cons.mpr (Or.inl hs)
    · intro s hs
      rcases List.mem_cons.mp hs with hs' | hs'
      · exact List.mem_cons.mpr (Or.inl hs')
      · exact List.mem_cons_of_mem c (ih w hw s hs')

/-- The staging sentinel is never among the entries to be moved, because
it is in the exclusion set. -/
theorem sentinel_not_top (exclude : List String) (tree1 : List FsPath)
    (hE : TMP_TARGET_PATH ∈ exclude) :
    TMP_TARGET_PATH ∉ topEntries exclude tree1 := by
  intro h
  have h2 := (List.mem_filter.mp h).2
  simp only [decide_eq_true_eq] at h2
  exact h2 hE

/-- Shape of the tree after the first move: the staging directory entry
itself, staged content (sentinel at the head only), or untouched paths
free of the sentinel. -/
theorem stagedTree_shape (exclude : List String) (tree : List FsPath)
    (hT : ∀ p ∈ tree, TMP_TARGET_PATH ∉ p)
    (hE : TMP_TARGET_PATH ∈ exclude) :
    ∀ q ∈ stagedTree exclude ([TMP_TARGET_PATH] :: tree),
      q = [TMP_TARGET_PATH] ∨
        (∃ rest, q = TMP_TARGET_PATH :: rest ∧ TMP_TARGET_PATH ∉ rest) ∨
        TMP_TARGET_PATH ∉ q := by
  intro q hq
  rcases List.mem_map.mp hq with ⟨w, hw, rfl⟩
  rcases List.mem_cons.mp hw with rfl | hw'
  · left
    simp only [stageMove]
    rw [if_neg (sentinel_not_top exclude _ hE)]
  · have hTw := hT w hw'
    cases w with
    | nil => right; right; simp [stageMove]
    | cons n rest =>
      simp only [stageMove]
      by_cases hn : n ∈ topEntries exclude ([TMP_TARGET_PATH] :: tree)
      · rw [if_pos hn]
        right; left
        exact ⟨n :: rest, rfl, hTw⟩
      · rw [if_neg hn]
        right; right
        exact hTw

/-- C7: After relocation, the staging directory's sentinel name appears
nowhere in the destination tree — for any prior tree free of the
sentinel (covering both the ordinary and the self-collision case),
provided the sentinel is in the exclusion set (it always is) and the
alias does not itself use the sentinel as a segment. -/
theorem moveRepoContents_no_sentinel (exclude : List String)
    (repoName : String) (tree : List FsPath)
    (hT : ∀ p ∈ tree, TMP_TARGET_PATH ∉ p)
    (hE : TMP_TARGET_PATH ∈ exclude)
    (hR : TMP_TARGET_PATH ∉ splitSlash repoName) :
    ∀ p ∈ moveRepoContents exclude repoName tree, TMP_TARGET_PATH ∉ p := by
  intro p hp
  have hnotmem : ([TMP_TARGET_PATH] : FsPath) ∉ tree := fun hmem =>
    hT _ hmem (List.mem_singleton.mpr rfl)
  rw [moveRepoContents, if_neg hnotmem] at hp
  rcases List.mem_map.mp hp with ⟨q, hq, rfl⟩
  have hshape : q = [TMP_TARGET_PATH] ∨
      (∃ rest, q = TMP_TARGET_PATH :: rest ∧ TMP_TARGET_PATH ∉ rest) ∨
      TMP_TARGET_PATH ∉ q := by
    unfold withParents at hq
    by_cases hs : hasSlash repoName
    · rw [if_pos hs] at hq
      rcases List.mem_append.mp hq with hq1 | hq2
      · right; right
        intro hTq
        have hmem := mem_dirChain_comps _ q (List.mem_filter.mp hq1).1 _ hTq
        exact hR (mem_of_mem_dropLast _ _ hmem)
      · exact stagedTree_shape exclude tree hT hE q hq2
    · rw [if_neg hs] at hq
      exact stagedTree_shape exclude tree hT hE q hq
  rcases hshape with rfl | ⟨rest, rfl, hrest⟩ | hnoT
  · simp only [finalMove]
    rw [if_pos trivial]
    intro hmem
    rcases List.mem_append.mp hmem with h | h
    · exact hR h
    · simp at h
  · simp only [finalMove]
    rw [if_pos trivial]
    intro hmem
    rcases List.mem_append.mp hmem with h | h
    · exact hR h
    · exact hrest h
  · cases q with
    | nil => simp [finalMove]
    | cons n rest =>
      have hn : ¬ n = TMP_TARGET_PATH := fun h =>
        hnoT (h ▸ List.mem_cons_self n rest)
      simp only [finalMove]
      rw [if_neg hn]
      exact hnoT

/-- Witness for C7, in the self-collision case: alias `foo` whose own
top level contains an entry named `foo`; the sentinel appears nowhere in
the relocated tree. -/
theorem moveRepoContents_no_sentinel_witness :
    ((∀ p ∈ ([[".git"], [".git", "config"], ["foo"], ["foo", "data.txt"],
        ["README.md"]] : List FsPath), TMP_TARGET_PATH ∉ p) ∧
      TMP_TARGET_PATH ∈ [".git", TMP_TARGET_PATH] ∧
      TMP_TARGET_PATH ∉ splitSlash "foo") ∧
      ∀ p ∈ moveRepoContents [".git", TMP_TARGET_PATH] "foo"
        [[".git"], [".git", "config"], ["foo"], ["foo", "data.txt"],
          ["README.md"]], TMP_TARGET_PATH ∉ p := by
  refine ⟨⟨by decide, by decide, by decide⟩, ?_⟩
  exact moveRepoContents_no_sentinel [".git", TMP_TARGET_PATH] "foo"
    [[".git"], [".git", "config"], ["foo"], ["foo", "data.txt"],
      ["README.md"]] (by decide) (by decide) (by decide)

/-! ### Lemmas about the byte-wise and component-wise path orders -/

theorem charListLt_cons_iff (x y : Char) (xs ys : List Char) :
    charListLt (x :: xs) (y :: ys) = true ↔
      x < y ∨ (x = y ∧ charListLt xs ys = true) := by
  simp only [charListLt]
  rcases lt_trichotomy x y with h | h | h
  · rw [if_pos h]
    simp [h]
  · subst h
    rw [if_neg (lt_irrefl x), if_neg (lt_irrefl x)]
    simp [lt_irrefl]
  · rw [if_neg (lt_asymm h), if_pos h]
    simp only [Bool.false_eq_true, false_iff]
    rintro (hlt | ⟨rfl, _⟩)
    · exact lt_asymm h hlt
    · exact lt_irrefl x h

theorem charListLt_trans (a : List Char) :
    ∀ b c, charListLt a b = true → charListLt b c = true →
      charListLt a c = true := by
  induction a with
  | nil =>
    intro b c hab hbc
    cases c with
    | nil => cases b <;> simp [charListLt] at hbc
    | cons z zs => simp [charListLt]
  | cons x xs ih =>
    intro b c hab hbc
    cases b with
    | nil => simp [charListLt] at hab
    | cons y ys =>
      cases c with
      | nil => simp [charListLt] at hbc
      | cons z zs =>
        rcases (charListLt_cons_iff x y xs ys).mp hab with h1 | ⟨rfl, h1⟩
        · rcases (charListLt_cons_iff y z ys zs).mp hbc with h2 | ⟨rfl, h2⟩
          · exact (charListLt_cons_iff x z xs zs).mpr (Or.inl (lt_trans h1 h2))
          · exact (charListLt_cons_iff x y xs zs).mpr (Or.inl h1)
        · rcases (charListLt_cons_iff x z ys zs).mp hbc with h2 | ⟨rfl, h2⟩
          · exact (charListLt_cons_iff x z xs zs).mpr (Or.inl h2)
          · exact (charListLt_cons_iff x x xs zs).mpr
              (Or.inr ⟨rfl, ih ys zs h1 h2⟩)

theorem charListLt_connex (a : List Char) :
    ∀ b, charListLt a b = false → charListLt b a = false → a = b := by
  induction a with
  | nil =>
    intro b hab _
    cases b with
    | nil => rfl
    | cons y ys => simp [charListLt] at hab
  | cons x xs ih =>
    intro b hab hba
    cases b with
    | nil => simp [charListLt] at hba
    | cons y ys =>
      rcases lt_trichotomy x y with h | h | h
      · exfalso
        have ht : charListLt (x :: xs) (y :: ys) = true :=
          (charListLt_cons_iff x y xs ys).mpr (Or.inl h)
        rw [hab] at ht
        cases ht
      · subst h
        have hxs : charListLt xs ys = false := by
          cases hcl : charListLt xs ys with
          | false => rfl
          | true =>
            have ht : charListLt (x :: xs) (x :: ys) = true :=
              (charListLt_cons_iff x x xs ys).mpr (Or.inr ⟨rfl, hcl⟩)
            rw [hab] at ht
            cases ht
        have hys : charListLt ys xs = false := by
          cases hcl : charListLt ys xs with
          | false => rfl
          | true =>
            have ht : charListLt (x :: ys) (x :: xs) = true :=
              (charListLt_cons_iff x x ys xs).mpr (Or.inr ⟨rfl, hcl⟩)
            rw [hba] at ht
            cases ht
        rw [ih ys hxs hys]
      · exfalso
        have ht : charListLt (y :: ys) (x :: xs) = true :=
          (charListLt_cons_iff y x ys xs).mpr (Or.inl h)
        rw [hba] at ht
        cases ht

theorem strLt_trans (a b c : String) (h1 : strLt a b = true)
    (h2 : strLt b c = true) : strLt a c = true :=
  charListLt_trans a.data b.data c.data h1 h2

theorem strLt_connex (a b : String) (h1 : strLt a b = false)
    (h2 : strLt b a = false) : a = b := by
  have h := charListLt_connex a.data b.data h1 h2
  cases a with
  | mk da =>
    cases b with
    | mk db => exact congrArg String.mk h

theorem pathLeB_total (p : FsPath) : ∀ q : FsPath,
    pathLeB p q = true ∨ pathLeB q p = true := by
  induction p with
  | nil => intro q; left; rfl
  | cons a as ih =>
    intro q
    cases q with
    | nil => right; rfl
    | cons b bs =>
      simp only [pathLeB]
      cases hab : strLt a b with
      | true => simp
      | false =>
        cases hba : strLt b a with
        | true => simp
        | false => simpa using ih bs

theorem pathLeB_trans (p : FsPath) : ∀ q r : FsPath,
    pathLeB p q = true → pathLeB q r = true → pathLeB p r = true := by
  induction p with
  | nil => intro q r _ _; rfl
  | cons a as ih =>
    intro q r h1 h2
    cases q with
    | nil => simp [pathLeB] at h1
    | cons b bs =>
      cases r with
      | nil => simp [pathLeB] at h2
      | cons c cs =>
        simp only [pathLeB] at h1 h2 ⊢
        cases hab : strLt a b with
        | true =>
          cases hbc : strLt b c with
          | true => simp [strLt_trans a b c hab hbc]
          | false =>
            cases hcb : strLt c b with
            | true => simp [hbc, hcb] at h2
            | false =>
              have heq : b = c := strLt_connex b c hbc hcb
              subst heq
              simp [hab]
        | false =>
          cases hba : strLt b a with
          | true => simp [hab, hba] at h1
          | false =>
            have heq : a = b := strLt_connex a b hab hba
            subst heq
            simp only [hab, Bool.false_eq_true, if_false] at h1
            cases hac : strLt a c with
            | true => simp
            | false =>
              cases hca : strLt c a with
              | true => simp [hac, hca] at h2
              | false =>
                simp only [hac, hca, Bool.false_eq_true, if_false] at h2 ⊢
                exact ih bs cs h1 h2

/-! ### Lemmas about the insertion sort used by `find_repos` -/

theorem mem_insertPath (p x : FsPath) (l : List FsPath) :
    x ∈ insertPath p l ↔ x = p ∨ x ∈ l := by
  induction l with
  | nil => simp [insertPath]
  | cons q qs ih =>
    simp only [insertPath]
    by_cases h : pathLeB p q = true
    · rw [if_pos h]
      simp [List.mem_cons]
    · rw [if_neg h]
      rw [List.mem_cons, ih, List.mem_cons]
      tauto

theorem insertPath_perm (p : FsPath) (l : List FsPath) :
    (insertPath p l).Perm (p :: l) := by
  induction l with
  | nil => exact List.Perm.refl _
  | cons q qs ih =>
    simp only [insertPath]
    by_cases h : pathLeB p q = true
    · rw [if_pos h]
    · rw [if_neg h]
      exact (ih.cons q).trans (List.Perm.swap p q qs)

theorem sortPaths_perm (l : List FsPath) : (sortPaths l).Perm l := by
  induction l with
  | nil => exact List.Perm.refl _
  | cons p ps ih =>
    exact (insertPath_perm p (sortPaths ps)).trans (ih.cons p)

theorem mem_sortPaths (l : List FsPath) (x : FsPath) :
    x ∈ sortPaths l ↔ x ∈ l :=
  (sortPaths_perm l).mem_iff

theorem pairwise_insertPath (p : FsPath) (l : List FsPath)
    (hl : l.Pairwise (fun x y => pathLeB x y = true)) :
    (insertPath p l).Pairwise (fun x y => pathLeB x y = true) := by
  induction l with
  | nil => simp [insertPath]
  | cons q qs ih =>
    simp only [insertPath]
    rcases List.pairwise_cons.mp hl with ⟨hq, hqs⟩
    by_cases h : pathLeB p q = true
    · rw [if_pos h]
      refine List.Pairwise.cons ?_ hl
      intro x hx
      rcases List.mem_cons.mp hx with rfl | hx'
      · exact h
      · exact pathLeB_trans p q x h (hq x hx')
    · rw [if_neg h]
      refine List.Pairwise.cons ?_ (ih hqs)
      intro x hx
      rcases (mem_insertPath p x qs).mp hx with rfl | hx'
      · rcases pathLeB_total q x with ht | ht
        · exact ht
        · exact absurd ht h
      · exact hq x hx'

theorem sortPaths_sorted (l : List FsPath) :
    (sortPaths l).Pairwise (fun x y => pathLeB x y = true) := by
  induction l with
  | nil => simp [sortPaths]
  | cons p ps ih => exact pairwise_insertPath p (sortPaths ps) ih

theorem sortPaths_nodup (l : List FsPath) (h : l.Nodup) :
    (sortPaths l).Nodup :=
  (sortPaths_perm l).nodup_iff.mpr h

/-! ### Lemmas about the glob scan -/

theorem mem_globGitMarkers (root : FsPath) (fs : List FsPath) (p : FsPath) :
    p ∈ globGitMarkers root fs ↔
      p ∈ fs ∧ root.isPrefixOf p = true ∧ root.length < p.length ∧
        p.getLast? = some ".git" := by
  unfold globGitMarkers
  rw [List.mem_filter]
  simp [Bool.and_eq_true, and_assoc]

theorem filterMap_parentPath_eq_map (l : List FsPath)
    (h : ∀ p ∈ l, p ≠ []) :
    l.filterMap parentPath = l.map List.dropLast := by
  induction l with
  | nil => rfl
  | cons p ps ih =>
    have hp := h p (List.mem_cons_self p ps)
    cases p with
    | nil => exact absurd rfl hp
    | cons a as =>
      simp only [List.filterMap_cons, parentPath, List.map_cons]
      rw [ih (fun q hq => h q (List.mem_cons_of_mem _ hq))]

/-- C8 amended: repository discovery returns only directories that
directly contain the version-control marker (the marker component
stripped), without duplicates, sorted ascending in the component-wise
path order that `Vec<PathBuf>::sort` uses — not by path string. -/
theorem findRepos_spec (root : FsPath) (fs : List FsPath)
    (hfs : fs.Nodup) :
    (∀ p ∈ findRepos root fs, p ++ [".git"] ∈ fs) ∧
      (findRepos root fs).Nodup ∧
      (findRepos root fs).Pairwise (fun p q => pathLeB p q = true) := by
  have hne : ∀ q ∈ globGitMarkers root fs, q ≠ [] := by
    intro q hq hnil
    have h4 := ((mem_globGitMarkers root fs q).mp hq).2.2.2
    subst hnil
    simp at h4
  have hrestore : ∀ q ∈ globGitMarkers root fs,
      q.dropLast ++ [".git"] = q := by
    intro q hq
    have h4 := ((mem_globGitMarkers root fs q).mp hq).2.2.2
    exact List.dropLast_append_getLast? ".git" (Option.mem_def.mpr h4)
  have heq : (globGitMarkers root fs).filterMap parentPath
      = (globGitMarkers root fs).map List.dropLast :=
    filterMap_parentPath_eq_map _ hne
  refine ⟨?_, ?_, ?_⟩
  · intro p hp
    unfold findRepos at hp
    rw [heq, mem_sortPaths] at hp
    rcases List.mem_map.mp hp with ⟨q, hq, rfl⟩
    rw [hrestore q hq]
    exact ((mem_globGitMarkers root fs q).mp hq).1
  · unfold findRepos
    rw [heq]
    apply sortPaths_nodup
    apply List.Nodup.map_on
    · intro x hx y hy hxy
      rw [← hrestore x hx, ← hrestore y hy, hxy]
    · exact List.Nodup.filter _ hfs
  · unfold findRepos
    exact sortPaths_sorted _

/-- Witness for the amended C8: a small tree with two repositories and a
non-repository directory. -/
theorem findRepos_spec_witness :
    ([["r", "a", ".git"], ["r", "b", "c", ".git"], ["r", "b"]]
        : List FsPath).Nodup ∧
      ∀ p ∈ findRepos ["r"]
          [["r", "a", ".git"], ["r", "b", "c", ".git"], ["r", "b"]],
        p ++ [".git"]
          ∈ [["r", "a", ".git"], ["r", "b", "c", ".git"], ["r", "b"]] := by
  refine ⟨by decide, ?_⟩
  exact (findRepos_spec ["r"]
    [["r", "a", ".git"], ["r", "b", "c", ".git"], ["r", "b"]]
    (by decide)).1

/-- C8 counterexample: the returned list is sorted by path components
(Rust `PathBuf` order), which differs from ascending path-string order:
with repositories at `r/a-b/x` and `r/a/c`, the result places `r/a/c`
first although its path string is the strictly larger one. -/
theorem findRepos_not_string_sorted_cex :
    findRepos ["r"] [["r", "a-b", "x", ".git"], ["r", "a", "c", ".git"]]
        = [["r", "a", "c"], ["r", "a-b", "x"]] ∧
      pathString ["r", "a", "c"] = "r/a/c" ∧
      pathString ["r", "a-b", "x"] = "r/a-b/x" ∧
      strLt "r/a-b/x" "r/a/c" = true := by
  exact ⟨rfl, rfl, rfl, by decide⟩

end Trenza
